import Mathlib

/-!
Verification of the core of the jsonstring-formatter repository: the
recursive nested-JSON-string resolver `parseNestedJson`, the line
correspondence builder `buildLineMapping` (both from `src/App.jsx`),
and the top-level parse/update step `handleParse`.

JSON values are embedded as the inductive `JsonValue`.  The external
standard JSON parser (`JSON.parse`, an external collaborator the spec
does not specify beyond "standard JSON grammar") is modelled by
`parseJson` below.
-/

/-- A JSON value: the universal in-memory representation, both before and
after resolution.  Numbers are kept as their lexed literal text: the
program never computes with a number's value, it only carries numbers
through unchanged, so nothing observable depends on the numeric value. -/
inductive JsonValue where
  | null
  | bool (b : Bool)
  | num (lit : String)
  | str (s : String)
  | arr (elems : List JsonValue)
  | obj (entries : List (String × JsonValue))

/-- The JSON grammar's insignificant whitespace characters. -/
def isJsonWs (c : Char) : Bool :=
  c = ' ' || c = '\t' || c = '\n' || c = '\r'

/-- Drop leading JSON whitespace. -/
def skipWs (cs : List Char) : List Char :=
  cs.dropWhile isJsonWs

/-- The value of one hex digit, if `c` is one. -/
def hexVal (c : Char) : Option Nat :=
  if '0' ≤ c ∧ c ≤ '9' then some (c.toNat - '0'.toNat)
  else if 'a' ≤ c ∧ c ≤ 'f' then some (c.toNat - 'a'.toNat + 10)
  else if 'A' ≤ c ∧ c ≤ 'F' then some (c.toNat - 'A'.toNat + 10)
  else none

/-- The code unit named by four hex digit values. -/
def hex4 (a b c d : Nat) : Nat :=
  ((a * 16 + b) * 16 + c) * 16 + d

/-- Decode one escape sequence of a JSON string literal: `e` is the
character after the backslash, `rest` the input after it.  Escape
sequences follow the JSON grammar; a `\uXXXX` escape pair encoding a
surrogate pair is combined into one scalar, and a lone surrogate
(representable in a host UTF-16 string but not as a unicode scalar) is
modelled as U+FFFD. -/
def decodeEscape (e : Char) (rest : List Char) : Option (Char × List Char) :=
  match e with
  | '"' => some ('"', rest)
  | '\\' => some ('\\', rest)
  | '/' => some ('/', rest)
  | 'b' => some ('\x08', rest)
  | 'f' => some ('\x0c', rest)
  | 'n' => some ('\n', rest)
  | 'r' => some ('\r', rest)
  | 't' => some ('\t', rest)
  | 'u' =>
    match rest with
    | h1 :: h2 :: h3 :: h4 :: rest2 =>
      match hexVal h1, hexVal h2, hexVal h3, hexVal h4 with
      | some a, some b, some c, some d =>
        if 0xD800 ≤ hex4 a b c d ∧ hex4 a b c d ≤ 0xDBFF then
          match rest2 with
          | '\\' :: 'u' :: g1 :: g2 :: g3 :: g4 :: rest3 =>
            match hexVal g1, hexVal g2, hexVal g3, hexVal g4 with
            | some a2, some b2, some c2, some d2 =>
              if 0xDC00 ≤ hex4 a2 b2 c2 d2 ∧ hex4 a2 b2 c2 d2 ≤ 0xDFFF then
                some (Char.ofNat
                  (0x10000 + (hex4 a b c d - 0xD800) * 0x400 + (hex4 a2 b2 c2 d2 - 0xDC00)),
                  rest3)
              else some ('�', rest2)
            | _, _, _, _ => some ('�', rest2)
          | _ => some ('�', rest2)
        else if 0xDC00 ≤ hex4 a b c d ∧ hex4 a b c d ≤ 0xDFFF then some ('�', rest2)
        else some (Char.ofNat (hex4 a b c d), rest2)
      | _, _, _, _ => none
    | _ => none
  | _ => none

/-- Decode a JSON string literal body: the characters after the opening
quote, up to and including the closing quote.  Returns the decoded
string and the input after the closing quote. -/
def parseStrAux (fuel : Nat) (acc cs : List Char) : Option (String × List Char) :=
  match fuel with
  | 0 => none
  | fuel' + 1 =>
    match cs with
    | [] => none
    | '"' :: rest => some (String.mk acc.reverse, rest)
    | '\\' :: e :: rest =>
      match decodeEscape e rest with
      | some (c, rest2) => parseStrAux fuel' (c :: acc) rest2
      | none => none
    | c :: rest =>
      if c.toNat < 0x20 then none else parseStrAux fuel' (c :: acc) rest

/-- Split off a maximal run of decimal digits. -/
def lexDigits (cs : List Char) : List Char × List Char :=
  (cs.takeWhile Char.isDigit, cs.dropWhile Char.isDigit)

/-- Lex the optional exponent part of a JSON number, given the literal
text lexed so far. -/
def lexExpPart (pre : List Char) (cs : List Char) : Option (String × List Char) :=
  match cs with
  | e :: r =>
    if e = 'e' ∨ e = 'E' then
      match r with
      | '+' :: r2 =>
        match lexDigits r2 with
        | ([], _) => none
        | (ds, r3) => some (String.mk (pre ++ e :: '+' :: ds), r3)
      | '-' :: r2 =>
        match lexDigits r2 with
        | ([], _) => none
        | (ds, r3) => some (String.mk (pre ++ e :: '-' :: ds), r3)
      | _ =>
        match lexDigits r with
        | ([], _) => none
        | (ds, r3) => some (String.mk (pre ++ e :: ds), r3)
    else some (String.mk pre, cs)
  | [] => some (String.mk pre, [])

/-- Lex the optional fraction part of a JSON number, then the exponent. -/
def lexFracPart (pre : List Char) (cs : List Char) : Option (String × List Char) :=
  match cs with
  | '.' :: r =>
    match lexDigits r with
    | ([], _) => none
    | (ds, r2) => lexExpPart (pre ++ '.' :: ds) r2
  | _ => lexExpPart pre cs

/-- Lex a JSON number literal: `-? (0 | [1-9][0-9]*) frac? exp?`.
Returns the literal text and the remaining input. -/
def lexNumber (cs : List Char) : Option (String × List Char) :=
  match cs with
  | '-' :: cs1 =>
    match cs1 with
    | '0' :: r => lexFracPart ['-', '0'] r
    | c :: r =>
      if c.isDigit then
        match lexDigits r with
        | (ds, r2) => lexFracPart ('-' :: c :: ds) r2
      else none
    | [] => none
  | '0' :: r => lexFracPart ['0'] r
  | c :: r =>
    if c.isDigit then
      match lexDigits r with
      | (ds, r2) => lexFracPart (c :: ds) r2
    else none
  | [] => none

/-- The three recursion modes of the recursive-descent JSON parser: a
single value, the element list of an array (after `[`), and the member
list of an object (after `{`). -/
inductive PMode where
  | val
  | elems
  | members
deriving Repr, DecidableEq

/-- One fueled recursive-descent JSON parser for all three modes.  In
mode `elems` the result is always an `arr`, in mode `members` always an
`obj`.  Fuel decreases by one at every recursive call; the top level
supplies ample fuel (see `parseJson`). -/
def parseF (fuel : Nat) (mode : PMode) (cs : List Char) : Option (JsonValue × List Char) :=
  match fuel with
  | 0 => none
  | fuel + 1 =>
  match mode with
  | .val =>
    match skipWs cs with
    | 'n' :: 'u' :: 'l' :: 'l' :: rest => some (.null, rest)
    | 't' :: 'r' :: 'u' :: 'e' :: rest => some (.bool true, rest)
    | 'f' :: 'a' :: 'l' :: 's' :: 'e' :: rest => some (.bool false, rest)
    | '"' :: rest =>
      match parseStrAux (rest.length + 1) [] rest with
      | some (s, rest1) => some (.str s, rest1)
      | none => none
    | '[' :: rest =>
      match skipWs rest with
      | ']' :: rest1 => some (.arr [], rest1)
      | _ =>
        match parseF fuel .elems rest with
        | some (.arr xs, rest1) => some (.arr xs, rest1)
        | _ => none
    | '{' :: rest =>
      match skipWs rest with
      | '}' :: rest1 => some (.obj [], rest1)
      | _ =>
        match parseF fuel .members rest with
        | some (.obj kvs, rest1) => some (.obj kvs, rest1)
        | _ => none
    | other =>
      match lexNumber other with
      | some (lit, rest) => some (.num lit, rest)
      | none => none
  | .elems =>
    match parseF fuel .val cs with
    | none => none
    | some (v, rest) =>
      match skipWs rest with
      | ',' :: rest1 =>
        match parseF fuel .elems rest1 with
        | some (.arr xs, rest2) => some (.arr (v :: xs), rest2)
        | _ => none
      | ']' :: rest1 => some (.arr [v], rest1)
      | _ => none
  | .members =>
    match skipWs cs with
    | '"' :: rest =>
      match parseStrAux (rest.length + 1) [] rest with
      | none => none
      | some (k, rest1) =>
        match skipWs rest1 with
        | ':' :: rest2 =>
          match parseF fuel .val rest2 with
          | none => none
          | some (v, rest3) =>
            match skipWs rest3 with
            | ',' :: rest4 =>
              match parseF fuel .members rest4 with
              | some (.obj kvs, rest5) => some (.obj ((k, v) :: kvs), rest5)
              | _ => none
            | '}' :: rest4 => some (.obj [(k, v)], rest4)
            | _ => none
        | _ => none
    | _ => none

/-- Modelled from the spec: `parseJson(text) -> JsonValue | ParseError`
(§6) is supplied by a standard JSON parser, an external collaborator the
repository does not contain; this is that parser over the standard JSON
grammar, with `none` as the error outcome.  A parse succeeds when one
JSON value surrounded only by whitespace covers the whole text.  The
recursion consumes at most two fuel units per input character, so the
fuel supplied here never runs out.  Duplicate object keys are kept in
textual order; host-engine property-order quirks (integer-like keys
listed first) are not modelled, as no verified property depends on the
entry order a parse produces. -/
def parseJson (s : String) : Option JsonValue :=
  match parseF (2 * s.data.length + 2) .val s.data with
  | some (v, rest) => if skipWs rest = [] then some v else none
  | none => none

example : parseJson "null" = some .null := rfl
example : parseJson " true " = some (.bool true) := rfl
example : parseJson "30" = some (.num "30") := rfl
example : parseJson "-1.5e+2" = some (.num "-1.5e+2") := rfl
example : parseJson "\"John\"" = some (.str "John") := rfl
example : parseJson "[1, 2]" = some (.arr [.num "1", .num "2"]) := rfl
example : parseJson "\x7b\"a\": 1\x7d" = some (.obj [("a", .num "1")]) := rfl
example : parseJson "hello world" = none := rfl
example : parseJson "\x7b\"name\":\"John\",\"age\":30\x7d" =
    some (.obj [("name", .str "John"), ("age", .num "30")]) := rfl
example : parseJson "\"\\\"esc\\\"\"" = some (.str "\"esc\"") := rfl
example : parseJson "[01]" = none := rfl
example : parseJson "" = none := rfl
example : parseJson "John" = none := rfl

/-- The textual footprint of a JSON value: a lower bound on the number of
characters any JSON text denoting the value must contain.  Used as the
termination measure of the resolver. -/
def jsize : JsonValue → Nat
  | .str s => s.length + 2
  | .arr xs => 2 + (xs.attach.map fun x => jsize x.1).sum
  | .obj kvs => 2 + (kvs.attach.map fun kv => kv.1.1.length + 3 + jsize kv.1.2).sum
  | _ => 1
termination_by v => sizeOf v
decreasing_by
  · have h := List.sizeOf_lt_of_mem x.2
    simp only [JsonValue.arr.sizeOf_spec]
    omega
  · have h := List.sizeOf_lt_of_mem kv.2
    have h2 : sizeOf kv.1.2 < sizeOf kv.1 := by
      obtain ⟨⟨a, b⟩, hm⟩ := kv
      simp only [Prod.mk.sizeOf_spec]
      omega
    simp only [JsonValue.obj.sizeOf_spec]
    omega

lemma jsize_null : jsize .null = 1 := by simp [jsize]

lemma jsize_bool (b : Bool) : jsize (.bool b) = 1 := by simp [jsize]

lemma jsize_num (lit : String) : jsize (.num lit) = 1 := by simp [jsize]

lemma jsize_str (s : String) : jsize (.str s) = s.length + 2 := by simp [jsize]

lemma jsize_arr (xs : List JsonValue) :
    jsize (.arr xs) = 2 + (xs.map jsize).sum := by
  rw [jsize]
  congr 2
  exact List.attach_map_val xs jsize

lemma jsize_obj (kvs : List (String × JsonValue)) :
    jsize (.obj kvs) = 2 + (kvs.map fun kv => kv.1.length + 3 + jsize kv.2).sum := by
  rw [jsize]
  congr 2
  exact List.attach_map_val kvs fun kv => kv.1.length + 3 + jsize kv.2

lemma jsize_lt_arr {x : JsonValue} {xs : List JsonValue} (h : x ∈ xs) :
    jsize x < jsize (.arr xs) := by
  rw [jsize_arr]
  have : jsize x ≤ (xs.map jsize).sum :=
    List.single_le_sum (fun a _ => Nat.zero_le a) _ (List.mem_map_of_mem jsize h)
  omega

lemma jsize_lt_obj {kv : String × JsonValue} {kvs : List (String × JsonValue)}
    (h : kv ∈ kvs) : jsize kv.2 < jsize (.obj kvs) := by
  rw [jsize_obj]
  have : kv.1.length + 3 + jsize kv.2 ≤ (kvs.map fun kv => kv.1.length + 3 + jsize kv.2).sum :=
    List.single_le_sum (fun a _ => Nat.zero_le a) _
      (List.mem_map_of_mem (fun kv => kv.1.length + 3 + jsize kv.2) h)
  omega

lemma skipWs_length (cs : List Char) : (skipWs cs).length ≤ cs.length :=
  (List.dropWhile_sublist _).length_le

lemma lexDigits_snd_length (cs : List Char) : (lexDigits cs).2.length ≤ cs.length :=
  (List.dropWhile_sublist _).length_le

lemma decodeEscape_length {e : Char} {rest : List Char} {c : Char} {r : List Char}
    (h : decodeEscape e rest = some (c, r)) : r.length ≤ rest.length := by
  unfold decodeEscape at h
  repeat' split at h
  all_goals
    first
    | exact Option.noConfusion h
    | (simp only [Option.some.injEq, Prod.mk.injEq] at h
       obtain ⟨-, hr⟩ := h
       subst hr
       subst_vars
       try simp only [List.length_cons]
       omega)

lemma parseStrAux_length :
    ∀ fuel acc cs s rest, parseStrAux fuel acc cs = some (s, rest) →
      s.length + 1 + rest.length ≤ acc.length + cs.length := by
  intro fuel
  induction fuel with
  | zero => intro acc cs s rest h; simp [parseStrAux] at h
  | succ n ih =>
    intro acc cs s rest h
    simp only [parseStrAux] at h
    split at h
    · exact Option.noConfusion h
    · rename_i rest1
      simp only [Option.some.injEq, Prod.mk.injEq] at h
      obtain ⟨hs, hr⟩ := h
      subst hs; subst hr
      simp [String.length]
      omega
    · rename_i e rest1
      split at h
      · rename_i c0 rest2 hd
        have h1 := ih _ _ _ _ h
        have h2 := decodeEscape_length hd
        simp at h1
        simp
        omega
      · exact Option.noConfusion h
    · rename_i c0 rest1 _ _
      split at h
      · exact Option.noConfusion h
      · have h1 := ih _ _ _ _ h
        simp at h1
        simp
        omega

lemma lexExpPart_length :
    ∀ pre cs lit rest, lexExpPart pre cs = some (lit, rest) → rest.length ≤ cs.length := by
  intro pre cs lit rest h
  unfold lexExpPart at h
  repeat' split at h
  all_goals
    first
    | exact Option.noConfusion h
    | (simp only [Option.some.injEq, Prod.mk.injEq] at h
       obtain ⟨-, hr⟩ := h
       subst hr
       subst_vars
       try simp only [List.length_cons, List.length_nil]
       try omega)
  all_goals rename_i heq
  all_goals
    (simp only [lexDigits, Prod.mk.injEq] at heq
     obtain ⟨-, hr3⟩ := heq
     subst hr3
     exact Nat.le_trans ((List.dropWhile_sublist _).length_le) (by omega))

lemma lexFracPart_length :
    ∀ pre cs lit rest, lexFracPart pre cs = some (lit, rest) → rest.length ≤ cs.length := by
  intro pre cs lit rest h
  unfold lexFracPart at h
  repeat' split at h
  · exact Option.noConfusion h
  · rename_i r heq
    have h2 := lexExpPart_length _ _ _ _ h
    simp only [lexDigits, Prod.mk.injEq] at heq
    obtain ⟨-, hr⟩ := heq
    subst hr
    have h3 := Nat.le_trans h2 ((List.dropWhile_sublist (p := Char.isDigit)).length_le)
    simp only [List.length_cons]
    omega
  · exact lexExpPart_length _ _ _ _ h

lemma lexNumber_length :
    ∀ cs lit rest, lexNumber cs = some (lit, rest) → rest.length < cs.length := by
  intro cs lit rest h
  unfold lexNumber at h
  repeat' split at h
  all_goals try exact Option.noConfusion h
  · have h2 := lexFracPart_length _ _ _ _ h
    simp only [List.length_cons]
    omega
  · rename_i heq
    have h2 := lexFracPart_length _ _ _ _ h
    simp only [lexDigits, Prod.mk.injEq] at heq
    obtain ⟨-, hr⟩ := heq
    subst hr
    have h3 := Nat.le_trans h2 ((List.dropWhile_sublist (p := Char.isDigit)).length_le)
    simp only [List.length_cons]
    omega
  · have h2 := lexFracPart_length _ _ _ _ h
    simp only [List.length_cons]
    omega
  · rename_i heq
    have h2 := lexFracPart_length _ _ _ _ h
    simp only [lexDigits, Prod.mk.injEq] at heq
    obtain ⟨-, hr⟩ := heq
    subst hr
    have h3 := Nat.le_trans h2 ((List.dropWhile_sublist (p := Char.isDigit)).length_le)
    simp only [List.length_cons]
    omega

/-- The size bound carried through each parser mode: for a value the
`jsize`, for an element/member list the sum of the entries' footprints
plus one for the closing bracket. -/
def mModeSize : PMode → JsonValue → Nat
  | .val, v => jsize v
  | .elems, .arr xs => (xs.map jsize).sum + 1
  | .members, .obj kvs => (kvs.map fun kv => kv.1.length + 3 + jsize kv.2).sum + 1
  | _, _ => 0

lemma parseF_size :
    ∀ fuel mode cs v rest, parseF fuel mode cs = some (v, rest) →
      mModeSize mode v + rest.length ≤ cs.length := by
  intro fuel
  induction fuel with
  | zero => intro mode cs v rest h; simp [parseF] at h
  | succ n ih =>
    intro mode cs v rest h
    have hws := skipWs_length cs
    cases mode with
    | val =>
      simp only [parseF] at h
      generalize hg : skipWs cs = cs1 at h hws
      split at h
      all_goals
        try (simp only [Option.some.injEq, Prod.mk.injEq] at h
             obtain ⟨hv, hr⟩ := h
             subst hv
             subst hr
             simp only [mModeSize, jsize_null, jsize_bool, List.length_cons] at hws ⊢
             omega)
      · -- string
        rename_i rest1
        split at h
        · rename_i s rest2 ho
          have h1 := parseStrAux_length _ _ _ _ _ ho
          simp only [Option.some.injEq, Prod.mk.injEq] at h
          obtain ⟨hv, hr⟩ := h
          subst hv
          subst hr
          simp only [mModeSize, jsize_str, List.length_cons, List.length_nil] at hws h1 ⊢
          omega
        · exact Option.noConfusion h
      · -- array
        rename_i rest1
        generalize hg2 : skipWs rest1 = cs2 at h
        have hws2 : cs2.length ≤ rest1.length := hg2 ▸ skipWs_length rest1
        split at h
        · -- empty array
          rename_i rest2
          simp only [Option.some.injEq, Prod.mk.injEq] at h
          obtain ⟨hv, hr⟩ := h
          subst hv
          subst hr
          simp only [mModeSize, jsize_arr, List.map_nil, List.sum_nil, List.length_cons]
            at hws hws2 ⊢
          omega
        · split at h
          · rename_i xs rest2 ho
            have h1 := ih _ _ _ _ ho
            simp only [Option.some.injEq, Prod.mk.injEq] at h
            obtain ⟨hv, hr⟩ := h
            subst hv
            subst hr
            simp only [mModeSize, jsize_arr, List.length_cons] at hws h1 ⊢
            omega
          · exact Option.noConfusion h
      · -- object
        rename_i rest1
        generalize hg2 : skipWs rest1 = cs2 at h
        have hws2 : cs2.length ≤ rest1.length := hg2 ▸ skipWs_length rest1
        split at h
        · rename_i rest2
          simp only [Option.some.injEq, Prod.mk.injEq] at h
          obtain ⟨hv, hr⟩ := h
          subst hv
          subst hr
          simp only [mModeSize, jsize_obj, List.map_nil, List.sum_nil, List.length_cons]
            at hws hws2 ⊢
          omega
        · split at h
          · rename_i kvs rest2 ho
            have h1 := ih _ _ _ _ ho
            simp only [Option.some.injEq, Prod.mk.injEq] at h
            obtain ⟨hv, hr⟩ := h
            subst hv
            subst hr
            simp only [mModeSize, jsize_obj, List.length_cons] at hws h1 ⊢
            omega
          · exact Option.noConfusion h
      · -- number
        split at h
        · rename_i lit rest1 ho
          have h1 := lexNumber_length _ _ _ ho
          simp only [Option.some.injEq, Prod.mk.injEq] at h
          obtain ⟨hv, hr⟩ := h
          subst hv
          subst hr
          simp only [mModeSize, jsize_num]
          omega
        · exact Option.noConfusion h
    | elems =>
      simp only [parseF] at h
      split at h
      · exact Option.noConfusion h
      · rename_i v0 rest0 hp
        have h0 := ih _ _ _ _ hp
        generalize hg : skipWs rest0 = cs2 at h
        have hws2 : cs2.length ≤ rest0.length := hg ▸ skipWs_length rest0
        split at h
        · -- comma: more elements
          rename_i rest1
          split at h
          · rename_i xs rest2 hq
            have h1 := ih _ _ _ _ hq
            simp only [Option.some.injEq, Prod.mk.injEq] at h
            obtain ⟨hv, hr⟩ := h
            subst hv
            subst hr
            simp only [mModeSize, List.map_cons, List.sum_cons, List.length_cons]
              at h0 h1 hws2 ⊢
            omega
          · exact Option.noConfusion h
        · -- closing bracket
          rename_i rest1
          simp only [Option.some.injEq, Prod.mk.injEq] at h
          obtain ⟨hv, hr⟩ := h
          subst hv
          subst hr
          simp only [mModeSize, List.map_cons, List.map_nil, List.sum_cons, List.sum_nil,
            List.length_cons] at h0 hws2 ⊢
          omega
        · exact Option.noConfusion h
    | members =>
      simp only [parseF] at h
      generalize hg : skipWs cs = cs1 at h hws
      split at h
      · -- key string
        rename_i rest0
        split at h
        · exact Option.noConfusion h
        · rename_i k rest1 ho
          have h1 := parseStrAux_length _ _ _ _ _ ho
          generalize hg2 : skipWs rest1 = cs2 at h
          have hws2 : cs2.length ≤ rest1.length := hg2 ▸ skipWs_length rest1
          split at h
          · -- colon
            rename_i rest2
            split at h
            · exact Option.noConfusion h
            · rename_i v0 rest3 hp
              have h2 := ih _ _ _ _ hp
              generalize hg3 : skipWs rest3 = cs3 at h
              have hws3 : cs3.length ≤ rest3.length := hg3 ▸ skipWs_length rest3
              split at h
              · -- comma: more members
                rename_i rest4
                split at h
                · rename_i kvs rest5 hq
                  have h3 := ih _ _ _ _ hq
                  simp only [Option.some.injEq, Prod.mk.injEq] at h
                  obtain ⟨hv, hr⟩ := h
                  subst hv
                  subst hr
                  simp only [mModeSize, List.map_cons, List.sum_cons, List.length_cons,
                    List.length_nil] at h1 h2 h3 hws hws2 hws3 ⊢
                  omega
                · exact Option.noConfusion h
              · -- closing brace
                rename_i rest4
                simp only [Option.some.injEq, Prod.mk.injEq] at h
                obtain ⟨hv, hr⟩ := h
                subst hv
                subst hr
                simp only [mModeSize, List.map_cons, List.map_nil, List.sum_cons,
                  List.sum_nil, List.length_cons, List.length_nil] at h1 h2 hws hws2 hws3 ⊢
                omega
              · exact Option.noConfusion h
          · exact Option.noConfusion h
      · exact Option.noConfusion h

lemma string_data_length (s : String) : s.data.length = s.length := rfl

/-- A successful top-level parse yields a value whose textual footprint
is bounded by the length of the parsed text. -/
lemma parseJson_size {s : String} {v : JsonValue} (h : parseJson s = some v) :
    jsize v ≤ s.length := by
  unfold parseJson at h
  split at h
  · rename_i v1 rest hp
    split at h
    · simp only [Option.some.injEq] at h
      subst h
      have h1 := parseF_size _ _ _ _ _ hp
      simp only [mModeSize, string_data_length] at h1
      omega
    · exact Option.noConfusion h
  · exact Option.noConfusion h

/-- The spec's termination argument (§4.1): a parsed value is strictly
smaller than the string leaf it came from. -/
lemma jsize_parse_lt {s : String} {v : JsonValue} (h : parseJson s = some v) :
    jsize v < jsize (.str s) := by
  have h1 := parseJson_size h
  rw [jsize_str]
  omega

/-- The resolver, from `src/App.jsx` (`parseNestedJson`): a string leaf
whose text parses as JSON is replaced by the recursively resolved parse
result; a string leaf whose text does not parse is kept verbatim; arrays
are resolved elementwise; objects valuewise with the keys untouched;
null, booleans and numbers are returned unchanged.  The recursion is
well-founded because a parsed value is strictly smaller (`jsize_parse_lt`)
than the string it came from. -/
def parseNestedJson (v : JsonValue) : JsonValue :=
  match v with
  | .str s =>
    match hp : parseJson s with
    | some w => parseNestedJson w
    | none => .str s
  | .arr xs => .arr (xs.attach.map fun x => parseNestedJson x.1)
  | .obj kvs => .obj (kvs.attach.map fun kv => (kv.1.1, parseNestedJson kv.1.2))
  | other => other
termination_by jsize v
decreasing_by
  · exact jsize_parse_lt hp
  · exact jsize_lt_arr x.2
  · exact jsize_lt_obj kv.2

lemma resolve_null : parseNestedJson .null = .null := by
  rw [parseNestedJson] <;> simp

lemma resolve_bool (b : Bool) : parseNestedJson (.bool b) = .bool b := by
  rw [parseNestedJson] <;> simp

lemma resolve_num (lit : String) : parseNestedJson (.num lit) = .num lit := by
  rw [parseNestedJson] <;> simp

lemma resolve_str_some {s : String} {w : JsonValue} (h : parseJson s = some w) :
    parseNestedJson (.str s) = parseNestedJson w := by
  rw [parseNestedJson]
  split
  · rename_i w1 hp
    rw [hp] at h
    simp only [Option.some.injEq] at h
    rw [h]
  · rename_i hp
    rw [hp] at h
    exact Option.noConfusion h

lemma resolve_str_none {s : String} (h : parseJson s = none) :
    parseNestedJson (.str s) = .str s := by
  rw [parseNestedJson]
  split
  · rename_i w1 hp
    rw [hp] at h
    exact Option.noConfusion h
  · rfl

lemma resolve_arr (xs : List JsonValue) :
    parseNestedJson (.arr xs) = .arr (xs.map parseNestedJson) := by
  rw [parseNestedJson]
  congr 1
  exact List.attach_map_val xs parseNestedJson

lemma resolve_obj (kvs : List (String × JsonValue)) :
    parseNestedJson (.obj kvs) = .obj (kvs.map fun kv => (kv.1, parseNestedJson kv.2)) := by
  rw [parseNestedJson]
  congr 1
  exact List.attach_map_val kvs fun kv => (kv.1, parseNestedJson kv.2)

/-- The `ResolvedValue` invariant of the spec (§3): no string leaf of the
tree has text that itself successfully parses as JSON.  Object keys are
not string leaves and are not checked, mirroring the data model. -/
def noJsonLeaf (v : JsonValue) : Bool :=
  match v with
  | .str s => (parseJson s).isNone
  | .arr xs => xs.attach.all fun x => noJsonLeaf x.1
  | .obj kvs => kvs.attach.all fun kv => noJsonLeaf kv.1.2
  | _ => true
termination_by jsize v
decreasing_by
  · exact jsize_lt_arr x.2
  · exact jsize_lt_obj kv.2

lemma noJsonLeaf_null : noJsonLeaf .null = true := by
  rw [noJsonLeaf] <;> simp

lemma noJsonLeaf_bool (b : Bool) : noJsonLeaf (.bool b) = true := by
  rw [noJsonLeaf] <;> simp

lemma noJsonLeaf_num (lit : String) : noJsonLeaf (.num lit) = true := by
  rw [noJsonLeaf] <;> simp

lemma noJsonLeaf_str (s : String) : noJsonLeaf (.str s) = (parseJson s).isNone := by
  rw [noJsonLeaf]

lemma noJsonLeaf_arr (xs : List JsonValue) :
    noJsonLeaf (.arr xs) = xs.all noJsonLeaf := by
  rw [noJsonLeaf]
  cases hff : xs.all noJsonLeaf with
  | true =>
    rw [List.all_eq_true] at hff
    rw [List.all_eq_true]
    intro y _
    exact hff y.1 y.2
  | false =>
    rw [List.all_eq_false] at hff
    rw [List.all_eq_false]
    obtain ⟨x, hx, hfx⟩ := hff
    exact ⟨⟨x, hx⟩, List.mem_attach xs ⟨x, hx⟩, hfx⟩

lemma noJsonLeaf_obj (kvs : List (String × JsonValue)) :
    noJsonLeaf (.obj kvs) = kvs.all fun kv => noJsonLeaf kv.2 := by
  rw [noJsonLeaf]
  cases hff : kvs.all fun kv => noJsonLeaf kv.2 with
  | true =>
    rw [List.all_eq_true] at hff
    rw [List.all_eq_true]
    intro y _
    exact hff y.1 y.2
  | false =>
    rw [List.all_eq_false] at hff
    rw [List.all_eq_false]
    obtain ⟨kv, hkv, hfkv⟩ := hff
    exact ⟨⟨kv, hkv⟩, List.mem_attach kvs ⟨kv, hkv⟩, hfkv⟩

/-- Strong induction on the textual footprint of a JSON value. -/
lemma jsize_induction (P : JsonValue → Prop)
    (step : ∀ v, (∀ w, jsize w < jsize v → P w) → P v) : ∀ v, P v := by
  have H : ∀ n (w : JsonValue), jsize w ≤ n → P w := by
    intro n
    induction n with
    | zero =>
      intro w hw
      refine step w fun u hu => absurd (Nat.lt_of_lt_of_le hu hw) (Nat.not_lt_zero _)
    | succ n ihn =>
      intro w hw
      refine step w fun u hu => ihn u (by omega)
  exact fun v => H (jsize v) v (Nat.le_refl _)

/-- Resolution establishes the `ResolvedValue` invariant: the resolved
tree has no string leaf that still parses as JSON. -/
lemma resolve_noJsonLeaf : ∀ v, noJsonLeaf (parseNestedJson v) = true := by
  refine jsize_induction _ ?_
  intro v IH
  match v with
  | .null => rw [resolve_null, noJsonLeaf_null]
  | .bool b => rw [resolve_bool, noJsonLeaf_bool]
  | .num lit => rw [resolve_num, noJsonLeaf_num]
  | .str s =>
    cases hp : parseJson s with
    | some w => rw [resolve_str_some hp]; exact IH w (jsize_parse_lt hp)
    | none => rw [resolve_str_none hp, noJsonLeaf_str, hp]; rfl
  | .arr xs =>
    rw [resolve_arr, noJsonLeaf_arr]
    rw [List.all_eq_true]
    intro y hy
    rw [List.mem_map] at hy
    obtain ⟨x, hx, hxy⟩ := hy
    rw [← hxy]
    exact IH x (jsize_lt_arr hx)
  | .obj kvs =>
    rw [resolve_obj, noJsonLeaf_obj]
    rw [List.all_eq_true]
    intro y hy
    rw [List.mem_map] at hy
    obtain ⟨kv, hkv, hky⟩ := hy
    rw [← hky]
    exact IH kv.2 (jsize_lt_obj hkv)

lemma map_eq_self_of_eq {α : Type} (f : α → α) :
    ∀ (xs : List α), (∀ x ∈ xs, f x = x) → xs.map f = xs := by
  intro xs
  induction xs with
  | nil => intro _; rfl
  | cons x xs ihx =>
    intro hall
    rw [List.map_cons, hall x (List.mem_cons_self x xs), ihx fun y hy =>
      hall y (List.mem_cons_of_mem x hy)]

/-- A tree already satisfying the invariant is a fixpoint of resolution. -/
lemma resolve_fixpoint : ∀ v, noJsonLeaf v = true → parseNestedJson v = v := by
  refine jsize_induction _ ?_
  intro v IH hv
  match v with
  | .null => exact resolve_null
  | .bool b => exact resolve_bool b
  | .num lit => exact resolve_num lit
  | .str s =>
    rw [noJsonLeaf_str, Option.isNone_iff_eq_none] at hv
    exact resolve_str_none hv
  | .arr xs =>
    rw [noJsonLeaf_arr, List.all_eq_true] at hv
    rw [resolve_arr]
    congr 1
    exact map_eq_self_of_eq _ xs fun x hx => IH x (jsize_lt_arr hx) (hv x hx)
  | .obj kvs =>
    rw [noJsonLeaf_obj, List.all_eq_true] at hv
    rw [resolve_obj]
    congr 1
    refine map_eq_self_of_eq _ kvs fun kv hkv => ?_
    rw [IH kv.2 (jsize_lt_obj hkv) (hv kv hkv)]

/-- Resolution reaches a fixpoint after one call. -/
lemma resolve_idem (v : JsonValue) :
    parseNestedJson (parseNestedJson v) = parseNestedJson v :=
  resolve_fixpoint _ (resolve_noJsonLeaf v)

/-- The characters removed by the host `trim()`: ECMAScript WhiteSpace
and LineTerminator code points. -/
def jsWhitespaceChar (c : Char) : Bool :=
  c = '\t' || c = '\n' || c = '\x0b' || c = '\x0c' || c = '\x0d' || c = ' ' ||
  c = ' ' || c = ' ' ||
  (decide (' ' ≤ c) && decide (c ≤ ' ')) ||
  c = ' ' || c = ' ' || c = ' ' || c = ' ' ||
  c = '　' || c = '﻿'

/-- The host `String.prototype.trim()`: strip whitespace from both ends. -/
def jsTrim (s : String) : String :=
  String.mk (((s.data.dropWhile jsWhitespaceChar).reverse.dropWhile jsWhitespaceChar).reverse)

/-- The first match of the host regular expression `/"([^"]+)":/` in `cs`:
scan left to right for a quote followed by a nonempty run of non-quote
characters, a closing quote and an immediate colon; return the run.
This is exactly what `line.match(/"([^"]+)":/)` extracts in
`buildLineMapping` (`src/App.jsx` line 47): the pattern is unanchored, so
the key needs not stand at the start of the line. -/
def findKey (cs : List Char) : Option String :=
  match cs with
  | [] => none
  | c :: rest =>
    if c = '"' then
      match rest.dropWhile (fun x => x != '"') with
      | '"' :: ':' :: _ =>
        if (rest.takeWhile fun x => x != '"').isEmpty then findKey rest
        else some (String.mk (rest.takeWhile fun x => x != '"'))
      | _ => findKey rest
    else findKey rest

/-- The key the builder extracts from one line: the regex match over the
trimmed line content. -/
def lineKey (s : String) : Option String :=
  findKey (jsTrim s).data

/-- The inner search loop of `buildLineMapping` (`src/App.jsx` lines
50-58): scan the original lines from index `i`, through at most `fuel`
lines and never past the end, for the first line whose extracted key is
`pk`. -/
def windowSearchAux (origLines : List String) (pk : String) (i fuel : Nat) : Option Nat :=
  match fuel with
  | 0 => none
  | fuel + 1 =>
    match origLines.get? i with
    | none => none
    | some line =>
      if lineKey line = some pk then some i
      else windowSearchAux origLines pk (i + 1) fuel

/-- The bounded forward search: at most 20 original lines are examined
starting at the cursor. -/
def windowSearch (origLines : List String) (origIdx : Nat) (pk : String) : Option Nat :=
  windowSearchAux origLines pk origIdx 20

/-- The main loop of `buildLineMapping`: one step per resolved line, in
order, carrying the 0-based index of the current resolved line and the
forward-only cursor into the original lines.  An entry maps the 1-based
resolved line number to the 1-based original line number. -/
def buildLoop (origLines : List String) :
    List String → Nat → Nat → List (Nat × Nat)
  | [], _, _ => []
  | pl :: rest, parsedIdx, origIdx =>
    match lineKey pl with
    | none => buildLoop origLines rest (parsedIdx + 1) origIdx
    | some pk =>
      match windowSearch origLines origIdx pk with
      | none => buildLoop origLines rest (parsedIdx + 1) origIdx
      | some i => (parsedIdx + 1, i + 1) :: buildLoop origLines rest (parsedIdx + 1) (i + 1)

def splitLinesAux (acc : List Char) (cs : List Char) : List String :=
  match cs with
  | [] => [String.mk acc.reverse]
  | '\n' :: rest => String.mk acc.reverse :: splitLinesAux [] rest
  | c :: rest => splitLinesAux (c :: acc) rest

/-- The host `split('\n')`: cut the text at every newline; a trailing
newline yields a final empty line, the empty text yields one empty line. -/
def splitLines (s : String) : List String :=
  splitLinesAux [] s.data

/-- `buildLineMapping` from `src/App.jsx` (lines 39-61): split both texts
into lines and run the forward-only matching loop.  The host `Map`
insertion order is the list order; each resolved line number is inserted
at most once, so the association list is a faithful rendering of the map. -/
def buildLineMapping (originalStr parsedStr : String) : List (Nat × Nat) :=
  buildLoop (splitLines originalStr) (splitLines parsedStr) 0 0

/-- Whether original line `i` exists and its extracted key is `pk`. -/
def matchAt (origLines : List String) (i : Nat) (pk : String) : Bool :=
  match origLines.get? i with
  | some line => lineKey line == some pk
  | none => false

/-- The `"<key>":` pattern anchored at the head of the sequence: a
quote, a nonempty run of non-quote characters, a closing quote and an
immediate colon; the run is the key. -/
def headKey (cs : List Char) : Option String :=
  match cs with
  | [] => none
  | c :: rest =>
    if c = '"' then
      match rest.dropWhile (fun x => x != '"') with
      | '"' :: ':' :: _ =>
        if (rest.takeWhile fun x => x != '"').isEmpty then none
        else some (String.mk (rest.takeWhile fun x => x != '"'))
      | _ => none
    else none

/-- Following the claim's words: the key pattern anchored at one fixed
position `p` of the character sequence. -/
def keyAt (cs : List Char) (p : Nat) : Option String :=
  headKey (cs.drop p)

/-- Following the claim's words: the key of the leftmost position where
the `"<key>":` pattern occurs anywhere in the sequence. -/
def specFirstKey (cs : List Char) : Option String :=
  (List.range cs.length).findSome? (keyAt cs)

example : lineKey "  \"a\": 1," = some "a" := rfl
example : lineKey "  \"b\": \x7b\"c\":2\x7d" = some "b" := rfl
example : lineKey "\x7b\"c\":2\x7d" = some "c" := rfl
example : lineKey "  \x7b" = none := rfl
example : lineKey "x" = none := rfl
example : lineKey "\"\":" = none := rfl
example : buildLineMapping "\x7b\n  \"a\": \"1\",\n  \"b\": \x7b\"c\":2\x7d\n\x7d"
    "\x7b\n  \"a\": 1,\n  \"b\": \x7b\n    \"c\": 2\n  \x7d\n\x7d" = [(2, 2), (3, 3)] := rfl
example : buildLineMapping "\"a\": 1\n\"b\": 2" "\"a\": 9\n\"b\": 8" = [(1, 1), (2, 2)] := rfl
example : specFirstKey ("\x7b\"c\":2\x7d".data) = some "c" := rfl
example : keyAt ("\x7b\"c\":2\x7d".data) 0 = none := rfl

/-- The application's reactive state, restricted to what the parse step
touches: the last successfully resolved value and the error message shown
in the error bar (empty when no error is shown). -/
structure AppState where
  parsed : JsonValue
  error : String

/-- The parse step of the application (the auto-parse effect in
`src/App.jsx` lines 140-148, `handleParse` in the earlier revision):
parse the raw input; on success store the resolved value and clear the
error; on failure store the thrown parse error's message (`errMsg`) and
leave the resolved value untouched. -/
def handleParse (errMsg : String) (input : String) (st : AppState) : AppState :=
  match parseJson input with
  | some obj => { parsed := parseNestedJson obj, error := "" }
  | none => { st with error := errMsg }
lemma matchAt_lt_length {origLines : List String} {j : Nat} {pk : String}
    (h : matchAt origLines j pk = true) : j < origLines.length := by
  unfold matchAt at h
  by_contra hge
  rw [Nat.not_lt] at hge
  rw [List.get?_eq_none.mpr hge] at h
  exact Bool.noConfusion h

lemma matchAt_iff {origLines : List String} {j : Nat} {pk : String} :
    matchAt origLines j pk = true ↔
      ∃ line, origLines.get? j = some line ∧ lineKey line = some pk := by
  unfold matchAt
  cases hg : origLines.get? j with
  | none => simp
  | some line => simp [hg, beq_iff_eq]

lemma windowSearchAux_some {origLines : List String} {pk : String} :
    ∀ fuel i j, windowSearchAux origLines pk i fuel = some j →
      i ≤ j ∧ j < i + fuel ∧ matchAt origLines j pk = true ∧
      ∀ m, i ≤ m → m < j → matchAt origLines m pk = false := by
  intro fuel
  induction fuel with
  | zero => intro i j h; simp [windowSearchAux] at h
  | succ n ihn =>
    intro i j h
    simp only [windowSearchAux] at h
    cases hg : origLines.get? i with
    | none =>
      simp only [hg] at h
      exact Option.noConfusion h
    | some line =>
      simp only [hg] at h
      split at h
      · rename_i hkey
        simp only [Option.some.injEq] at h
        subst h
        refine ⟨Nat.le_refl _, by omega, ?_, ?_⟩
        · exact matchAt_iff.mpr ⟨line, hg, hkey⟩
        · intro m hm1 hm2; omega
      · rename_i hkey
        obtain ⟨h1, h2, h3, h4⟩ := ihn _ _ h
        refine ⟨by omega, by omega, h3, ?_⟩
        intro m hm1 hm2
        rcases Nat.eq_or_lt_of_le hm1 with hm | hm
        · subst hm
          unfold matchAt
          rw [hg]
          simp only [beq_eq_false_iff_ne, ne_eq]
          exact hkey
        · exact h4 m hm hm2

lemma windowSearchAux_none {origLines : List String} {pk : String} :
    ∀ fuel i, (∀ d, d < fuel → matchAt origLines (i + d) pk = false) →
      windowSearchAux origLines pk i fuel = none := by
  intro fuel
  induction fuel with
  | zero => intro i _; rfl
  | succ n ihn =>
    intro i hall
    simp only [windowSearchAux]
    cases hg : origLines.get? i with
    | none => simp [hg]
    | some line =>
      have h0 := hall 0 (Nat.succ_pos n)
      unfold matchAt at h0
      rw [Nat.add_zero, hg] at h0
      simp only [beq_eq_false_iff_ne, ne_eq] at h0
      simp only [hg]
      rw [if_neg h0]
      exact ihn (i + 1) fun d hd => by
        have := hall (d + 1) (by omega)
        rwa [show i + (d + 1) = i + 1 + d by omega] at this

lemma buildLoop_mem {origLines : List String} :
    ∀ parsedLines idx c e, e ∈ buildLoop origLines parsedLines idx c →
      idx < e.1 ∧ c < e.2 := by
  intro parsedLines
  induction parsedLines with
  | nil => intro idx c e he; simp [buildLoop] at he
  | cons pl rest ihp =>
    intro idx c e he
    cases hk : lineKey pl with
    | none =>
      simp only [buildLoop, hk] at he
      have := ihp _ _ _ he
      omega
    | some pk =>
      cases hw : windowSearch origLines c pk with
      | none =>
        simp only [buildLoop, hk, hw] at he
        have := ihp _ _ _ he
        omega
      | some i =>
        simp only [buildLoop, hk, hw] at he
        have hi := (windowSearchAux_some _ _ _ hw).1
        rcases List.mem_cons.mp he with he1 | he2
        · subst he1
          refine ⟨by omega, by omega⟩
        · have := ihp _ _ _ he2
          omega

lemma buildLoop_pairwise {origLines : List String} :
    ∀ parsedLines idx c,
      (buildLoop origLines parsedLines idx c).Pairwise
        (fun a b => a.1 < b.1 ∧ a.2 < b.2) := by
  intro parsedLines
  induction parsedLines with
  | nil => intro idx c; simp [buildLoop]
  | cons pl rest ihp =>
    intro idx c
    cases hk : lineKey pl with
    | none =>
      simp only [buildLoop, hk]
      exact ihp _ _
    | some pk =>
      cases hw : windowSearch origLines c pk with
      | none =>
        simp only [buildLoop, hk, hw]
        exact ihp _ _
      | some i =>
        simp only [buildLoop, hk, hw]
        refine List.Pairwise.cons ?_ (ihp _ _)
        intro e he
        have := buildLoop_mem _ _ _ _ he
        exact ⟨by omega, by omega⟩

lemma pairwise_lt_of_mem {l : List (Nat × Nat)}
    (hp : l.Pairwise fun a b => a.1 < b.1 ∧ a.2 < b.2) :
    ∀ {a oa b ob}, (a, oa) ∈ l → (b, ob) ∈ l → a < b → oa < ob := by
  induction l with
  | nil => intro a oa b ob ha; simp at ha
  | cons hd tl ihl =>
    intro a oa b ob ha hb hab
    have hhd := List.pairwise_cons.mp hp
    rcases List.mem_cons.mp ha with ha1 | ha2 <;> rcases List.mem_cons.mp hb with hb1 | hb2
    · rw [← ha1] at hb1
      have h1 : a = b := (Prod.mk.injEq a oa b ob).mp hb1.symm |>.1
      omega
    · have := hhd.1 _ hb2
      rw [← ha1] at this
      exact this.2
    · have := hhd.1 _ ha2
      rw [← hb1] at this
      omega
    · exact ihl hhd.2 ha2 hb2 hab

lemma keyAt_zero (cs : List Char) : keyAt cs 0 = headKey cs := rfl

lemma keyAt_succ (c : Char) (cs : List Char) (p : Nat) :
    keyAt (c :: cs) (p + 1) = keyAt cs p := rfl

lemma findKey_head (c : Char) (cs : List Char) :
    findKey (c :: cs) =
      match headKey (c :: cs) with
      | some k => some k
      | none => findKey cs := by
  rw [findKey, headKey]
  by_cases hc : c = '"'
  · simp only [if_pos hc]
    split <;> split <;> simp_all
  · simp [hc]

/-- The extraction the builder performs coincides, on every character
sequence, with the leftmost occurrence anywhere in the sequence of the
anchored `"<key>":` pattern: the regex match is unanchored. -/
lemma findKey_eq_spec : ∀ cs, findKey cs = specFirstKey cs := by
  intro cs
  induction cs with
  | nil => rfl
  | cons c cs ihc =>
    unfold specFirstKey
    rw [List.length_cons, List.range_succ_eq_map, List.findSome?_cons]
    rw [findKey_head c cs]
    have hk0 : keyAt (c :: cs) 0 = headKey (c :: cs) := rfl
    rw [hk0]
    cases hh : headKey (c :: cs) with
    | some k => simp [hh]
    | none =>
      simp only [hh]
      rw [List.findSome?_map]
      have hcomp : (keyAt (c :: cs) ∘ Nat.succ) = keyAt cs := by
        funext p
        rfl
      rw [hcomp]
      exact ihc

/-- The keys of an object value, in stored order. -/
def objKeys : JsonValue → List String
  | .obj kvs => kvs.map Prod.fst
  | _ => []

/-- A JSON array nested `n` levels deep around a number leaf: the
adversarial deeply-nested input family of §4.1/§9. -/
def nestArr : Nat → JsonValue
  | 0 => .num "1"
  | n + 1 => .arr [nestArr n]

/-- C1: the resolver is total with silent recovery — it is a total
function (its recursion is well-founded by `jsize_parse_lt`), and a
string leaf whose text does not parse as JSON is returned unchanged as a
leaf; no error value exists in its type, so no error can be surfaced. -/
theorem c1_resolver_total_silent_recovery :
    ∀ s : String, parseJson s = none → parseNestedJson (.str s) = .str s :=
  fun _ h => resolve_str_none h

theorem c1_witness :
    parseJson "hello world" = none ∧
      parseNestedJson (.str "hello world") = .str "hello world" :=
  ⟨rfl, c1_resolver_total_silent_recovery "hello world" rfl⟩

/-- C2: resolution reaches a fixpoint in one call — no string leaf of a
resolved tree still parses as JSON, resolving twice equals resolving
once, and a tree with no JSON-parsing string leaf is returned unchanged. -/
theorem c2_resolution_fixpoint :
    ∀ v, noJsonLeaf (parseNestedJson v) = true ∧
      parseNestedJson (parseNestedJson v) = parseNestedJson v ∧
      (noJsonLeaf v = true → parseNestedJson v = v) :=
  fun v => ⟨resolve_noJsonLeaf v, resolve_idem v, resolve_fixpoint v⟩

theorem c2_witness :
    noJsonLeaf (JsonValue.obj [("msg", .str "hello world")]) = true ∧
      parseNestedJson (JsonValue.obj [("msg", .str "hello world")]) =
        JsonValue.obj [("msg", .str "hello world")] := by
  have h := c2_resolution_fixpoint (JsonValue.obj [("msg", .str "hello world")])
  refine ⟨?_, h.2.2 ?_⟩ <;>
    simp only [noJsonLeaf_obj, noJsonLeaf_str, List.all_cons, List.all_nil] <;> rfl

/-- C3: resolve preserves structure — null, booleans and numbers are
returned unchanged, arrays are resolved elementwise in order, objects
valuewise with keys and key order preserved unchanged (keys are never
parsed as JSON). -/
theorem c3_structure_preserved :
    parseNestedJson .null = .null ∧
    (∀ b, parseNestedJson (.bool b) = .bool b) ∧
    (∀ lit, parseNestedJson (.num lit) = .num lit) ∧
    (∀ xs, parseNestedJson (.arr xs) = .arr (xs.map parseNestedJson)) ∧
    (∀ kvs, parseNestedJson (.obj kvs) =
      .obj (kvs.map fun kv => (kv.1, parseNestedJson kv.2))) ∧
    (∀ kvs, objKeys (parseNestedJson (.obj kvs)) = objKeys (.obj kvs)) := by
  refine ⟨resolve_null, resolve_bool, resolve_num, resolve_arr, resolve_obj, ?_⟩
  intro kvs
  rw [resolve_obj]
  simp only [objKeys, List.map_map]
  rfl

/-- C4: nested unwrap — the object whose "data" value is the doubly
serialized text resolves to the object with the parsed structure in its
place, and a three-level encoding (a string containing a string
containing an object) fully unwraps to the innermost object in one call. -/
theorem c4_nested_unwrap :
    parseNestedJson (.obj [("data", .str "\x7b\"name\":\"John\",\"age\":30\x7d")]) =
      .obj [("data", .obj [("name", .str "John"), ("age", .num "30")])] ∧
    parseNestedJson (.str "\"\x7b\\\"a\\\":1\x7d\"") = .obj [("a", .num "1")] := by
  constructor
  · have hS : parseJson "\x7b\"name\":\"John\",\"age\":30\x7d" =
        some (.obj [("name", .str "John"), ("age", .num "30")]) := rfl
    have hJ : parseJson "John" = none := rfl
    rw [resolve_obj]
    simp only [List.map_cons, List.map_nil]
    rw [resolve_str_some hS, resolve_obj]
    simp only [List.map_cons, List.map_nil]
    rw [resolve_str_none hJ, resolve_num]
  · have h2 : parseJson "\"\x7b\\\"a\\\":1\x7d\"" = some (.str "\x7b\"a\":1\x7d") := rfl
    have h3 : parseJson "\x7b\"a\":1\x7d" = some (.obj [("a", .num "1")]) := rfl
    rw [resolve_str_some h2, resolve_str_some h3, resolve_obj]
    simp only [List.map_cons, List.map_nil]
    rw [resolve_num]

/-- C5: the resolver has no recursion-depth cutoff — it fully resolves
the nested-array family at every depth `n`, so no bound exists past
which input is treated as unresolved; the source recursion descends one
call frame per nesting level with no guard (see the claim record for
the host-stack consequence). -/
theorem c5_no_depth_cutoff : ∀ n, parseNestedJson (nestArr n) = nestArr n := by
  intro n
  induction n with
  | zero => exact resolve_num "1"
  | succ n ihn =>
    rw [nestArr, resolve_arr]
    simp only [List.map_cons, List.map_nil]
    rw [ihn]

/-- C6 counterexample: the line `{"c":2}` has no leading `"<key>":`
pattern in its trimmed content (it starts with a brace), yet the builder
extracts the key `c` from it and produces a mapping entry, because the
host regex match is unanchored. -/
theorem c6_counterexample :
    buildLineMapping "\x7b\"c\":2\x7d" "\x7b\"c\":2\x7d" = [(1, 1)] ∧
    keyAt (jsTrim "\x7b\"c\":2\x7d").data 0 = none ∧
    lineKey "\x7b\"c\":2\x7d" = some "c" :=
  ⟨rfl, rfl, rfl⟩

/-- C6 (amended): for every resolved line processed in order, a key is
extracted exactly when the line's trimmed content contains a `"<key>":`
pattern anywhere (the leftmost occurrence is used, not only a leading
one); with no key the line produces no entry and the cursor does not
advance; with a key whose first window match is at original index `i`
the builder records `resolvedLine ↦ i + 1` and advances the cursor to
`i + 1`, so an already-consumed original line is never re-matched. -/
theorem c6_matching_rule :
    (∀ cs, findKey cs = specFirstKey cs) ∧
    (∀ origLines pl rest idx c, lineKey pl = none →
      buildLoop origLines (pl :: rest) idx c = buildLoop origLines rest (idx + 1) c ∧
      (idx + 1) ∉ (buildLoop origLines (pl :: rest) idx c).map Prod.fst) ∧
    (∀ origLines pl rest idx c pk i, lineKey pl = some pk →
      windowSearch origLines c pk = some i →
      buildLoop origLines (pl :: rest) idx c =
        (idx + 1, i + 1) :: buildLoop origLines rest (idx + 1) (i + 1)) ∧
    (∀ origLines c pk i, windowSearch origLines c pk = some i →
      matchAt origLines i pk = true ∧
      ∀ m, c ≤ m → m < i → matchAt origLines m pk = false) := by
  refine ⟨findKey_eq_spec, ?_, ?_, ?_⟩
  · intro origLines pl rest idx c hk
    constructor
    · simp only [buildLoop, hk]
    · simp only [buildLoop, hk]
      intro hmem
      rw [List.mem_map] at hmem
      obtain ⟨e, he, hfst⟩ := hmem
      have := buildLoop_mem _ _ _ _ he
      omega
  · intro origLines pl rest idx c pk i hk hw
    simp only [buildLoop, hk, hw]
  · intro origLines c pk i hw
    unfold windowSearch at hw
    have h := windowSearchAux_some _ _ _ hw
    exact ⟨h.2.2.1, h.2.2.2⟩

/-- C7: the search window is bounded — a successful search lands at an
original index between the cursor and 19 lines past it and inside the
original text; and when no original line in the 20-line window from the
cursor matches the key (even if a line beyond the window does), the
resolved line produces no mapping entry and the cursor is left
unchanged. -/
theorem c7_window_bound :
    ∀ origLines pl rest idx c pk, lineKey pl = some pk →
      (∀ i, windowSearch origLines c pk = some i →
        c ≤ i ∧ i < c + 20 ∧ i < origLines.length) ∧
      ((∀ d, d < 20 → matchAt origLines (c + d) pk = false) →
        buildLoop origLines (pl :: rest) idx c = buildLoop origLines rest (idx + 1) c ∧
        (idx + 1) ∉ (buildLoop origLines (pl :: rest) idx c).map Prod.fst) := by
  intro origLines pl rest idx c pk hk
  constructor
  · intro i hw
    unfold windowSearch at hw
    have h := windowSearchAux_some _ _ _ hw
    exact ⟨h.1, h.2.1, matchAt_lt_length h.2.2.1⟩
  · intro hnone
    have hw : windowSearch origLines c pk = none := windowSearchAux_none 20 c hnone
    constructor
    · simp only [buildLoop, hk, hw]
    · simp only [buildLoop, hk, hw]
      intro hmem
      rw [List.mem_map] at hmem
      obtain ⟨e, he, hfst⟩ := hmem
      have := buildLoop_mem _ _ _ _ he
      omega

theorem c7_witness :
    lineKey "  \"k\": 2" = some "k" ∧
      buildLoop (List.replicate 20 "x" ++ ["\"k\": 1"]) ["  \"k\": 2"] 0 0 = [] := by
  refine ⟨rfl, ?_⟩
  have h := (c7_window_bound (List.replicate 20 "x" ++ ["\"k\": 1"])
    "  \"k\": 2" [] 0 0 "k" rfl).2 (by decide)
  rw [h.1]
  rfl

/-- C8: line-map monotonicity — for any two mapped resolved lines
`a < b`, the original line mapped from `a` is at most the one mapped
from `b`. -/
theorem c8_linemap_monotone :
    ∀ origStr parsedStr a oa b ob,
      (a, oa) ∈ buildLineMapping origStr parsedStr →
      (b, ob) ∈ buildLineMapping origStr parsedStr →
      a < b → oa ≤ ob := by
  intro origStr parsedStr a oa b ob ha hb hab
  exact Nat.le_of_lt (pairwise_lt_of_mem (buildLoop_pairwise _ _ _) ha hb hab)

theorem c8_witness :
    ((1, 1) ∈ buildLineMapping "\"a\": 1\n\"b\": 2" "\"a\": 9\n\"b\": 8") ∧
    ((2, 2) ∈ buildLineMapping "\"a\": 1\n\"b\": 2" "\"a\": 9\n\"b\": 8") ∧
    (1 : Nat) ≤ 2 := by
  refine ⟨by decide, by decide, ?_⟩
  exact c8_linemap_monotone "\"a\": 1\n\"b\": 2" "\"a\": 9\n\"b\": 8" 1 1 2 2
    (by decide) (by decide) (by decide)

/-- C9: atomicity on top-level parse failure — when the raw input text
does not parse as JSON, the parse step surfaces the parser's error
message and leaves the previously resolved value unchanged. -/
theorem c9_parse_failure_atomic :
    ∀ errMsg input st, parseJson input = none →
      (handleParse errMsg input st).parsed = st.parsed ∧
      (handleParse errMsg input st).error = errMsg := by
  intro errMsg input st h
  unfold handleParse
  rw [h]
  exact ⟨rfl, rfl⟩

theorem c9_witness :
    parseJson "\x7b" = none ∧
    (handleParse "Unexpected end of JSON input" "\x7b"
      ⟨.bool true, ""⟩).parsed = .bool true ∧
    (handleParse "Unexpected end of JSON input" "\x7b"
      ⟨.bool true, ""⟩).error = "Unexpected end of JSON input" :=
  ⟨rfl,
    (c9_parse_failure_atomic "Unexpected end of JSON input" "\x7b" ⟨.bool true, ""⟩ rfl).1,
    (c9_parse_failure_atomic "Unexpected end of JSON input" "\x7b" ⟨.bool true, ""⟩ rfl).2⟩

/-- C10: line-map injectivity and strict growth — no two distinct
resolved lines map to the same original line, and mapped original line
numbers strictly increase with the resolved line number. -/
theorem c10_linemap_injective_strict :
    ∀ origStr parsedStr a oa b ob,
      (a, oa) ∈ buildLineMapping origStr parsedStr →
      (b, ob) ∈ buildLineMapping origStr parsedStr →
      (a < b → oa < ob) ∧ (a ≠ b → oa ≠ ob) := by
  intro origStr parsedStr a oa b ob ha hb
  constructor
  · exact fun hab => pairwise_lt_of_mem (buildLoop_pairwise _ _ _) ha hb hab
  · intro hne
    rcases Nat.lt_or_ge a b with hlt | hge
    · have := pairwise_lt_of_mem (buildLoop_pairwise _ _ _) ha hb hlt
      omega
    · have hba : b < a := by omega
      have := pairwise_lt_of_mem (buildLoop_pairwise _ _ _) hb ha hba
      omega

theorem c10_witness :
    ((1, 1) ∈ buildLineMapping "\"x\": 1\n\"y\": 2" "\"x\": 3\n\"y\": 4") ∧
    ((2, 2) ∈ buildLineMapping "\"x\": 1\n\"y\": 2" "\"x\": 3\n\"y\": 4") ∧
    (1 : Nat) < 2 ∧ (1 : Nat) ≠ 2 := by
  refine ⟨by decide, by decide, ?_, ?_⟩
  · exact (c10_linemap_injective_strict "\"x\": 1\n\"y\": 2" "\"x\": 3\n\"y\": 4" 1 1 2 2
      (by decide) (by decide)).1 (by decide)
  · exact (c10_linemap_injective_strict "\"x\": 1\n\"y\": 2" "\"x\": 3\n\"y\": 4" 1 1 2 2
      (by decide) (by decide)).2 (by decide)
